import Mathlib

/-!
Verification of the hera CLI yaml generation module
(`src/hera/_cli/generate/yaml.py`).

The module has three parts:

* `expand_paths` — expands a source path into the candidate python files
  (a single file is yielded unconditionally; a directory is enumerated,
  either only its immediate children or, with `recursive`, its whole
  subtree via `os.walk`, keeping only files whose suffix is `".py"`).
* `load_workflows_from_module` — dynamically executes a python file and
  collects the `Workflow` objects bound at module level.  Dynamic
  execution is outside a shallow embedding, so the loader is modelled as
  an abstract function `load : Path → List String` giving, for each
  candidate file, the list of serialized (`to_yaml`) texts of the
  workflows it defines.
* `generate_yaml` — routes the per-file serialized output either to
  stdout (joined with `"\n---\n"`) or to the filesystem.

The filesystem is modelled as a tree of entries; paths are lists of
components (mirroring `pathlib.Path.parts`).  Python compares `Path`
objects componentwise by code points, which `pathLe` reproduces.
`generate_yaml` is modelled as the ordered list of observable events it
performs: directory creation, file writes, the stdout write, and the two
ways it can raise (`typer.BadParameter` and `AssertionError`).  An event
appears in the trace exactly when (and in the order in which) the python
code performs the corresponding action, so "no write happens before the
failure" is visible in the trace itself.
-/

/-- A filesystem path, as its list of components (`pathlib.Path.parts`). -/
abbrev Pth := List String

mutual

/-- A filesystem tree: a regular file or a directory with named children
(in directory-listing order, as `os.listdir` would return them). -/
inductive Entry : Type where
  | file : Entry
  | dir : Entries → Entry
  deriving DecidableEq

/-- The ordered children of a directory. -/
inductive Entries : Type where
  | nil : Entries
  | cons : String → Entry → Entries → Entries
  deriving DecidableEq

end

/-- Look up a child by name in a directory listing (first match). -/
def findE : Entries → String → Option Entry
  | .nil, _ => none
  | .cons n e rest, c => if n = c then some e else findE rest c

/-- Resolve a relative path against a tree, returning the entry it
denotes, if any. -/
def resolve : Entry → Pth → Option Entry
  | e, [] => some e
  | .file, _ :: _ => none
  | .dir es, c :: rest =>
    match findE es c with
    | some e2 => resolve e2 rest
    | none => none

/-- Python `Path.is_dir()`: the path resolves to a directory. -/
def isDirAt (fs : Entry) (p : Pth) : Bool :=
  match resolve fs p with
  | some (.dir _) => true
  | _ => false

/-- Python `os.path.exists`: the path resolves to some entry. -/
def existsAt (fs : Entry) (p : Pth) : Bool :=
  (resolve fs p).isSome

/-- Is an entry a directory? -/
def isDirE : Entry → Bool
  | .file => false
  | .dir _ => true

/-- Names of the directory children, in listing order (the `dirnames`
component of an `os.walk` frame). -/
def dirNames : Entries → List String
  | .nil => []
  | .cons n e rest => if isDirE e then n :: dirNames rest else dirNames rest

/-- Names of the non-directory children, in listing order (the
`filenames` component of an `os.walk` frame). -/
def fileNames : Entries → List String
  | .nil => []
  | .cons n e rest => if isDirE e then fileNames rest else n :: fileNames rest

/-- One `os.walk` frame: `(dirpath, dirnames, filenames)`. -/
abbrev Frame := Pth × List String × List String

mutual

/-- Python `os.walk` (top-down) on an entry sitting at path `base`: for each
directory in the subtree, in depth-first pre-order, one frame
`(dirpath, dirnames, filenames)`.  Walking a regular file yields
nothing, as `os.walk` does. -/
def walkEntry (base : Pth) : Entry → List Frame
  | .file => []
  | .dir es => (base, dirNames es, fileNames es) :: walkEntries base es

/-- Walk the subtrees of the children of a directory at `base`, in
listing order. -/
def walkEntries (base : Pth) : Entries → List Frame
  | .nil => []
  | .cons n e rest => walkEntry (base ++ [n]) e ++ walkEntries base rest

end

/-- Python `os.walk(source)` against the whole tree `fs`. -/
def walkAt (fs : Entry) (source : Pth) : List Frame :=
  match resolve fs source with
  | some e => walkEntry source e
  | none => []

/-- Index of the last occurrence of a character in a list
(`str.rfind`). -/
def rfindChar (c : Char) : List Char → Option Nat
  | [] => none
  | x :: xs =>
    match rfindChar c xs with
    | some i => some (i + 1)
    | none => if x = c then some 0 else none

/-- Python `pathlib.PurePath.suffix` of a single name component: the part of
the name from its last dot, provided that dot is neither the first nor
the last character; otherwise the empty string. -/
def suffix (name : String) : String :=
  match rfindChar '.' name.toList with
  | some i =>
    if 0 < i ∧ i < name.toList.length - 1 then String.mk (name.toList.drop i) else ""
  | none => ""

/-- Python `pathlib.PurePath.with_suffix` on a single name component: drop the
existing suffix (if any) and append `suf`. -/
def with_suffix (name : String) (suf : String) : String :=
  let old := suffix name
  if old = "" then name ++ suf
  else String.mk (name.toList.take (name.toList.length - old.toList.length)) ++ suf

/-- Python `Path.name`: the final path component. -/
def nameOf (p : Pth) : String := p.getLastD ""

/-- The candidate paths contributed by one `os.walk` frame: each
filename whose suffix is `".py"`, joined onto the frame's dirpath. -/
def frameOutputs (f : Frame) : List Pth :=
  f.2.2.filterMap (fun n => if suffix n = ".py" then some (f.1 ++ [n]) else none)

/-- The function `expand_paths(source, recursive)`: a non-directory source is yielded
unconditionally; for a directory, either only the first `os.walk` frame
(`recursive=False`) or all frames are enumerated, and each frame
contributes its `".py"` files. -/
def expand_paths (fs : Entry) (source : Pth) (recursive : Bool) : List Pth :=
  if isDirAt fs source then
    (if recursive then walkAt fs source else (walkAt fs source).take 1).flatMap frameOutputs
  else [source]

/-- Code-point comparison of character lists: python's `str < str`. -/
def strLtAux : List Char → List Char → Bool
  | [], [] => false
  | [], _ :: _ => true
  | _ :: _, [] => false
  | a :: as, b :: bs =>
    if a.toNat < b.toNat then true
    else if b.toNat < a.toNat then false
    else strLtAux as bs

/-- Python string `<`. -/
def strLt (a b : String) : Bool := strLtAux a.toList b.toList

/-- Python `Path ≤ Path`: componentwise lexicographic comparison of the
parts, a shorter list of parts preceding its extensions. -/
def pathLe : Pth → Pth → Bool
  | [], _ => true
  | _ :: _, [] => false
  | a :: as, b :: bs =>
    if strLt a b then true
    else if strLt b a then false
    else pathLe as bs

/-- Stable insertion into a sorted list. -/
def insertSorted (p : Pth) : List Pth → List Pth
  | [] => [p]
  | q :: rest => if pathLe p q then p :: q :: rest else q :: insertSorted p rest

/-- Python `sorted(...)` on paths: a stable sort by `pathLe`. -/
def sortPaths : List Pth → List Pth
  | [] => []
  | p :: rest => insertSorted p (sortPaths rest)

/-- The document separator used both within a file and across files. -/
def docSep : String := "\n---\n"

/-- The loop of `generate_yaml` that builds `path_to_output`: for each
candidate path, load its workflows; a path with no workflows is skipped
(`continue`); otherwise the pair `(path.name, "\n---\n".join(texts))`
is appended. -/
def build_path_to_output (load : Pth → List String) : List Pth → List (String × String)
  | [] => []
  | path :: rest =>
    let yaml_outputs := load path
    if yaml_outputs.isEmpty then build_path_to_output load rest
    else (nameOf path, String.intercalate docSep yaml_outputs) :: build_path_to_output load rest

/-- An observable action of `generate_yaml`, in program order. -/
inductive Event : Type where
  | mkdir : Pth → Event
  | write : Pth → String → Event
  | stdoutWrite : String → Event
  | raiseBadParameter : String → Event
  | raiseAssertionError : Event
  deriving DecidableEq

/-- The `typer.BadParameter` message raised for a folder source with an
existing-file destination. -/
def badParameterMsg : String :=
  "The provided source path is a folder, but `--to` points at an existing file."

/-- The function `generate_yaml(from_, to, recursive)` as its ordered trace of
observable events.  Candidates are expanded and sorted, `path_to_output`
is built skipping workflow-less files, and then: with no destination the
joined output goes to stdout; with a destination and a directory source,
either `BadParameter` is raised (destination exists and is not a
directory) or the destination directory is created and one file per
entry is written under the entry's name with suffix `".yaml"`; with a
destination and a non-directory source, exactly one entry is asserted
and its text written to the destination. -/
def generate_yaml (fs : Entry) (load : Pth → List String)
    (from_ : Pth) (to_ : Option Pth) (recursive : Bool) : List Event :=
  let paths := sortPaths (expand_paths fs from_ recursive)
  let path_to_output := build_path_to_output load paths
  match to_ with
  | some t =>
    if isDirAt fs from_ then
      if existsAt fs t && !(isDirAt fs t) then
        [Event.raiseBadParameter badParameterMsg]
      else
        Event.mkdir t ::
          path_to_output.map (fun pc => Event.write (t ++ [with_suffix pc.1 ".yaml"]) pc.2)
    else
      match path_to_output with
      | [pc] => [Event.write t pc.2]
      | _ => [Event.raiseAssertionError]
  | none =>
    [Event.stdoutWrite (String.intercalate docSep (path_to_output.map Prod.snd))]

/-- All file paths in a directory listing's subtree, relative to that
directory, in listing order with each subtree inlined in place.  This is
a direct structural reading of the tree, independent of `os.walk`'s
frame order; it is used to characterise what the recursive expansion
yields. -/
def filesOfEntries : Entries → List Pth
  | .nil => []
  | .cons n .file rest => [n] :: filesOfEntries rest
  | .cons n (.dir es2) rest => (filesOfEntries es2).map (fun r => n :: r) ++ filesOfEntries rest

/-- The content a path holds after a trace: the last `write` event to
that path, if any (later writes overwrite earlier ones). -/
def finalContent (events : List Event) (p : Pth) : Option String :=
  events.foldl
    (fun acc ev =>
      match ev with
      | Event.write q c => if q = p then some c else acc
      | _ => acc)
    none

/-! ### Basic facts about the string and path orders -/

theorem char_eq_of_toNat_eq {a b : Char} (h : a.toNat = b.toNat) : a = b := by
  have hv : a.val = b.val := by
    rcases a with ⟨va⟩; rcases b with ⟨vb⟩
    simp only [Char.toNat] at h
    exact UInt32.eq_of_val_eq (Fin.ext (by simpa [UInt32.toNat] using h))
  exact Char.ext hv

theorem string_eq_of_toList_eq {a b : String} (h : a.toList = b.toList) : a = b := by
  cases a; cases b
  simp only [String.toList] at h
  exact congrArg String.mk h

theorem strLtAux_eq_of_not_lt :
    ∀ as bs : List Char, strLtAux as bs = false → strLtAux bs as = false → as = bs
  | [], [], _, _ => rfl
  | [], _ :: _, h1, _ => by simp [strLtAux] at h1
  | _ :: _, [], _, h2 => by simp [strLtAux] at h2
  | a :: as, b :: bs, h1, h2 => by
    by_cases hab : a.toNat < b.toNat
    · simp [strLtAux, hab] at h1
    · by_cases hba : b.toNat < a.toNat
      · simp [strLtAux, hba, hab] at h2
      · have hAB : a = b := char_eq_of_toNat_eq (Nat.le_antisymm (Nat.le_of_not_lt hba) (Nat.le_of_not_lt hab))
        simp only [strLtAux, if_neg hab, if_neg hba] at h1
        simp only [strLtAux, if_neg hba, if_neg hab] at h2
        rw [hAB, strLtAux_eq_of_not_lt as bs h1 h2]

theorem strLtAux_trans :
    ∀ as bs cs : List Char, strLtAux as bs = true → strLtAux bs cs = true → strLtAux as cs = true
  | as, [], _, h1, _ => by cases as <;> simp [strLtAux] at h1
  | _, _ :: _, [], _, h2 => by simp [strLtAux] at h2
  | [], _ :: _, _ :: _, _, _ => by simp [strLtAux]
  | a :: as, b :: bs, c :: cs, h1, h2 => by
    by_cases hab : a.toNat < b.toNat
    · by_cases hbc : b.toNat < c.toNat
      · simp [strLtAux, Nat.lt_trans hab hbc]
      · by_cases hcb : c.toNat < b.toNat
        · simp [strLtAux, hbc, hcb] at h2
        · have : b = c := char_eq_of_toNat_eq (Nat.le_antisymm (Nat.le_of_not_lt hcb) (Nat.le_of_not_lt hbc))
          subst this
          simp [strLtAux, hab]
    · by_cases hba : b.toNat < a.toNat
      · simp [strLtAux, hab, hba] at h1
      · have : a = b := char_eq_of_toNat_eq (Nat.le_antisymm (Nat.le_of_not_lt hba) (Nat.le_of_not_lt hab))
        subst this
        by_cases hbc : a.toNat < c.toNat
        · simp [strLtAux, hbc]
        · by_cases hcb : c.toNat < a.toNat
          · simp [strLtAux, hbc, hcb] at h2
          · have : a = c := char_eq_of_toNat_eq (Nat.le_antisymm (Nat.le_of_not_lt hcb) (Nat.le_of_not_lt hbc))
            subst this
            simp only [strLtAux, if_neg hbc, if_neg hcb] at h1 h2 ⊢
            exact strLtAux_trans as bs cs h1 h2

theorem strLt_eq_of_not_lt {a b : String} (h1 : strLt a b = false) (h2 : strLt b a = false) :
    a = b :=
  string_eq_of_toList_eq (strLtAux_eq_of_not_lt a.toList b.toList h1 h2)

theorem strLt_trans {a b c : String} (h1 : strLt a b = true) (h2 : strLt b c = true) :
    strLt a c = true :=
  strLtAux_trans a.toList b.toList c.toList h1 h2

theorem pathLe_total : ∀ a b : Pth, pathLe a b = true ∨ pathLe b a = true
  | [], _ => Or.inl rfl
  | _ :: _, [] => Or.inr rfl
  | a :: as, b :: bs => by
    by_cases hab : strLt a b = true
    · left; simp [pathLe, hab]
    · by_cases hba : strLt b a = true
      · right; simp [pathLe, hba]
      · have hab' : strLt a b = false := by simpa using hab
        have hba' : strLt b a = false := by simpa using hba
        rcases pathLe_total as bs with h | h
        · left; simp [pathLe, hab', hba', h]
        · right; simp [pathLe, hab', hba', h]

theorem pathLe_trans :
    ∀ a b c : Pth, pathLe a b = true → pathLe b c = true → pathLe a c = true
  | [], _, _, _, _ => rfl
  | _ :: _, [], _, h1, _ => by simp [pathLe] at h1
  | _ :: _, _ :: _, [], _, h2 => by simp [pathLe] at h2
  | a :: as, b :: bs, c :: cs, h1, h2 => by
    by_cases hab : strLt a b = true
    · by_cases hbc : strLt b c = true
      · simp [pathLe, strLt_trans hab hbc]
      · by_cases hcb : strLt c b = true
        · simp [pathLe, hbc, hcb] at h2
        · have : b = c := strLt_eq_of_not_lt (by simpa using hbc) (by simpa using hcb)
          subst this
          simp [pathLe, hab]
    · by_cases hba : strLt b a = true
      · simp [pathLe, hab, hba] at h1
      · have : a = b := strLt_eq_of_not_lt (by simpa using hab) (by simpa using hba)
        subst this
        by_cases hac : strLt a c = true
        · simp [pathLe, hac]
        · by_cases hca : strLt c a = true
          · simp [pathLe, hac, hca] at h2
          · have : a = c := strLt_eq_of_not_lt (by simpa using hac) (by simpa using hca)
            subst this
            have hac' : strLt a a = false := by simpa using hac
            simp only [pathLe, if_neg (by simp [hac'] : ¬ strLt a a = true)] at h1 h2 ⊢
            exact pathLe_trans as bs cs h1 h2

/-! ### The sort used for candidate paths is a sorted permutation -/

theorem insertSorted_perm (p : Pth) : ∀ l : List Pth, (insertSorted p l).Perm (p :: l)
  | [] => List.Perm.refl _
  | q :: rest => by
    by_cases h : pathLe p q = true
    · simp [insertSorted, h]
    · have h' : pathLe p q = false := by simpa using h
      simp only [insertSorted, h', if_false]
      exact ((insertSorted_perm p rest).cons q).trans (List.Perm.swap p q rest)

theorem sortPaths_perm : ∀ l : List Pth, (sortPaths l).Perm l
  | [] => List.Perm.refl _
  | p :: rest => (insertSorted_perm p (sortPaths rest)).trans ((sortPaths_perm rest).cons p)

theorem mem_insertSorted {x p : Pth} {l : List Pth} :
    x ∈ insertSorted p l ↔ x = p ∨ x ∈ l := by
  rw [(insertSorted_perm p l).mem_iff]
  simp

theorem insertSorted_pairwise (p : Pth) :
    ∀ l : List Pth, List.Pairwise (fun a b => pathLe a b = true) l →
      List.Pairwise (fun a b => pathLe a b = true) (insertSorted p l)
  | [], _ => by simp [insertSorted]
  | q :: rest, h => by
    rcases List.pairwise_cons.mp h with ⟨hq, hrest⟩
    by_cases hpq : pathLe p q = true
    · simp only [insertSorted, hpq, if_true]
      refine List.pairwise_cons.mpr ⟨?_, h⟩
      intro x hx
      rcases List.mem_cons.mp hx with rfl | hx
      · exact hpq
      · exact pathLe_trans p q x hpq (hq x hx)
    · have hqp : pathLe q p = true := by
        rcases pathLe_total p q with h' | h'
        · exact absurd h' hpq
        · exact h'
      have hpq' : pathLe p q = false := by simpa using hpq
      simp only [insertSorted, hpq', if_false]
      refine List.pairwise_cons.mpr ⟨?_, insertSorted_pairwise p rest hrest⟩
      intro x hx
      rcases mem_insertSorted.mp hx with rfl | hx
      · exact hqp
      · exact hq x hx

theorem sortPaths_pairwise :
    ∀ l : List Pth, List.Pairwise (fun a b => pathLe a b = true) (sortPaths l)
  | [] => List.Pairwise.nil
  | p :: rest => insertSorted_pairwise p (sortPaths rest) (sortPaths_pairwise rest)

/-! ### Facts about the output-building loop -/

theorem build_path_to_output_eq (load : Pth → List String) :
    ∀ paths : List Pth,
      build_path_to_output load paths =
        (paths.filter (fun p => !(load p).isEmpty)).map
          (fun p => (nameOf p, String.intercalate docSep (load p)))
  | [] => rfl
  | p :: rest => by
    by_cases h : (load p).isEmpty
    · simp [build_path_to_output, h, List.filter, build_path_to_output_eq load rest]
    · have h' : (load p).isEmpty = false := by simpa using h
      simp [build_path_to_output, h', List.filter, build_path_to_output_eq load rest]

theorem build_path_to_output_nil (load : Pth → List String) :
    ∀ paths : List Pth, (∀ p ∈ paths, load p = []) → build_path_to_output load paths = []
  | [], _ => rfl
  | p :: rest, h => by
    have hp : load p = [] := h p (List.mem_cons_self p rest)
    simp only [build_path_to_output, hp, List.isEmpty_nil, if_true]
    exact build_path_to_output_nil load rest (fun q hq => h q (List.mem_cons_of_mem p hq))

theorem filterMap_of_ite {α β : Type} (P : α → Prop) [DecidablePred P] (f : α → β) :
    ∀ l : List α,
      l.filterMap (fun n => if P n then some (f n) else none) =
        (l.filter (fun n => decide (P n))).map f
  | [] => rfl
  | a :: l => by
    by_cases h : P a
    · simp [List.filterMap_cons, h, List.filter, filterMap_of_ite P f l]
    · simp [List.filterMap_cons, h, List.filter, filterMap_of_ite P f l]

/-! ### Characterising what the path expansion yields on a directory -/

/-- All file paths in an entry's subtree, relative to the entry. -/
def filesOfE : Entry → List Pth
  | .file => []
  | .dir es => filesOfEntries es

theorem getLastD_ne_nil {α : Type} (d1 d2 : α) :
    ∀ l : List α, l ≠ [] → l.getLastD d1 = l.getLastD d2
  | [], h => absurd rfl h
  | [_], _ => rfl
  | _ :: _ :: _, _ => by simp only [List.getLastD_cons]

theorem nameOf_cons {c : String} {r : Pth} (h : r ≠ []) : nameOf (c :: r) = nameOf r := by
  unfold nameOf
  rw [List.getLastD_cons]
  exact getLastD_ne_nil c "" r h

theorem mem_filesOfEntries_ne_nil : ∀ (es : Entries) (r : Pth), r ∈ filesOfEntries es → r ≠ []
  | .nil, r, hr => by simp [filesOfEntries] at hr
  | .cons _ .file rest, r, hr => by
    rcases List.mem_cons.mp hr with rfl | hr
    · simp
    · exact mem_filesOfEntries_ne_nil rest r hr
  | .cons _ (.dir _) rest, r, hr => by
    rcases List.mem_append.mp hr with hr | hr
    · rcases List.mem_map.mp hr with ⟨r2, _, rfl⟩
      simp
    · exact mem_filesOfEntries_ne_nil rest r hr

theorem singleton_mem_filesOfEntries : ∀ (es : Entries) (n : String),
    [n] ∈ filesOfEntries es ↔ n ∈ fileNames es
  | .nil, n => by simp [filesOfEntries, fileNames]
  | .cons m .file rest, n => by
    have h1 : fileNames (.cons m .file rest) = m :: fileNames rest := by
      simp [fileNames, isDirE]
    rw [show filesOfEntries (.cons m .file rest) = [m] :: filesOfEntries rest from rfl, h1]
    simp only [List.mem_cons]
    constructor
    · rintro (h | h)
      · left
        injection h with h2 _
      · exact Or.inr ((singleton_mem_filesOfEntries rest n).mp h)
    · rintro (rfl | h)
      · exact Or.inl rfl
      · exact Or.inr ((singleton_mem_filesOfEntries rest n).mpr h)
  | .cons m (.dir es2) rest, n => by
    have h1 : fileNames (.cons m (.dir es2) rest) = fileNames rest := by
      simp [fileNames, isDirE]
    rw [show filesOfEntries (.cons m (.dir es2) rest)
        = (filesOfEntries es2).map (fun r => m :: r) ++ filesOfEntries rest from rfl, h1,
      List.mem_append]
    constructor
    · rintro (h | h)
      · exfalso
        rcases List.mem_map.mp h with ⟨r, hr, heq⟩
        have hne := mem_filesOfEntries_ne_nil es2 r hr
        rcases r with _ | ⟨x, xs⟩
        · exact hne rfl
        · simp at heq
      · exact (singleton_mem_filesOfEntries rest n).mp h
    · exact fun h => Or.inr ((singleton_mem_filesOfEntries rest n).mpr h)

theorem mem_frameOutputs {d : Pth} {dns fns : List String} {p : Pth} :
    p ∈ frameOutputs (d, dns, fns) ↔ ∃ n, n ∈ fns ∧ suffix n = ".py" ∧ p = d ++ [n] := by
  simp only [frameOutputs, List.mem_filterMap]
  constructor
  · rintro ⟨n, hn, hsome⟩
    by_cases h : suffix n = ".py"
    · rw [if_pos h] at hsome
      exact ⟨n, hn, h, (Option.some.inj hsome).symm⟩
    · rw [if_neg h] at hsome
      cases hsome
  · rintro ⟨n, hn, h, rfl⟩
    exact ⟨n, hn, by rw [if_pos h]⟩

mutual

theorem mem_walkEntry_outputs : ∀ (e : Entry) (base p : Pth),
    (p ∈ (walkEntry base e).flatMap frameOutputs ↔
      ∃ rest, rest ∈ filesOfE e ∧ p = base ++ rest ∧ suffix (nameOf rest) = ".py")
  | .file, base, p => by simp [walkEntry, filesOfE]
  | .dir es, base, p => by
    rw [show walkEntry base (.dir es) = (base, dirNames es, fileNames es) :: walkEntries base es from rfl,
      List.flatMap_cons, List.mem_append, mem_walkEntries_outputs es base p]
    simp only [filesOfE]
    constructor
    · rintro (hf | ⟨r, hmem, _, rfl, hsfx⟩)
      · rcases mem_frameOutputs.mp hf with ⟨n, hn, hsfx, rfl⟩
        exact ⟨[n], (singleton_mem_filesOfEntries es n).mpr hn, rfl, by simpa [nameOf] using hsfx⟩
      · exact ⟨r, hmem, rfl, hsfx⟩
    · rintro ⟨r, hmem, rfl, hsfx⟩
      rcases r with _ | ⟨n, r2⟩
      · exact absurd rfl (mem_filesOfEntries_ne_nil es [] hmem)
      · rcases r2 with _ | ⟨m, r3⟩
        · exact Or.inl (mem_frameOutputs.mpr
            ⟨n, (singleton_mem_filesOfEntries es n).mp hmem, by simpa [nameOf] using hsfx, rfl⟩)
        · exact Or.inr ⟨n :: m :: r3, hmem, by simp, rfl, hsfx⟩

theorem mem_walkEntries_outputs : ∀ (es : Entries) (base p : Pth),
    (p ∈ (walkEntries base es).flatMap frameOutputs ↔
      ∃ rest, rest ∈ filesOfEntries es ∧ 2 ≤ rest.length ∧ p = base ++ rest ∧
        suffix (nameOf rest) = ".py")
  | .nil, base, p => by simp [walkEntries, filesOfEntries]
  | .cons n e rest, base, p => by
    rw [show walkEntries base (.cons n e rest) = walkEntry (base ++ [n]) e ++ walkEntries base rest from rfl,
      List.flatMap_append, List.mem_append, mem_walkEntry_outputs e (base ++ [n]) p,
      mem_walkEntries_outputs rest base p]
    cases e with
    | file =>
      simp only [filesOfE, filesOfEntries]
      constructor
      · rintro (⟨r, hr, _⟩ | ⟨r, hr, hlen, rfl, hsfx⟩)
        · simp at hr
        · exact ⟨r, List.mem_cons_of_mem _ hr, hlen, rfl, hsfx⟩
      · rintro ⟨r, hr, hlen, rfl, hsfx⟩
        rcases List.mem_cons.mp hr with rfl | hr
        · simp at hlen
        · exact Or.inr ⟨r, hr, hlen, rfl, hsfx⟩
    | dir es2 =>
      simp only [filesOfE, filesOfEntries]
      constructor
      · rintro (⟨r, hr, rfl, hsfx⟩ | ⟨r, hr, hlen, rfl, hsfx⟩)
        · have hne := mem_filesOfEntries_ne_nil es2 r hr
          refine ⟨n :: r, List.mem_append.mpr (Or.inl (List.mem_map.mpr ⟨r, hr, rfl⟩)), ?_,
            by simp, ?_⟩
          · rcases r with _ | ⟨x, xs⟩
            · exact absurd rfl hne
            · simp
          · rw [nameOf_cons hne]
            exact hsfx
        · exact ⟨r, List.mem_append.mpr (Or.inr hr), hlen, rfl, hsfx⟩
      · rintro ⟨r, hr, hlen, rfl, hsfx⟩
        rcases List.mem_append.mp hr with hr | hr
        · rcases List.mem_map.mp hr with ⟨r2, hr2, rfl⟩
          have hne := mem_filesOfEntries_ne_nil es2 r2 hr2
          exact Or.inl ⟨r2, hr2, by simp, by rw [← nameOf_cons hne]; exact hsfx⟩
        · exact Or.inr ⟨r, hr, hlen, rfl, hsfx⟩

end

/-! ### Concrete filesystems and loaders used in scenarios -/

/-- A root holding a single python file. -/
def fsSolo : Entry := .dir (.cons "solo.py" .file .nil)

/-- A loader under which every file defines two workflows serializing to
`"X"` and `"Y"`. -/
def loadXY : Pth → List String := fun _ => ["X", "Y"]

/-- A loader under which no file defines any workflow. -/
def loadNone : Pth → List String := fun _ => []

/-- A loader under which every file defines one workflow serializing to
`"X"`. -/
def loadX : Pth → List String := fun _ => ["X"]

/-- Children of the `wf` directory: `a.py` and `c.py`. -/
def esWf : Entries := .cons "a.py" .file (.cons "c.py" .file .nil)

/-- A root holding the directory `wf` with files `a.py` and `c.py`. -/
def fsWf : Entry := .dir (.cons "wf" (.dir esWf) .nil)

/-- The loader sending `wf/a.py` to `"A"` and `wf/c.py` to `"C"`. -/
def loadAC : Pth → List String := fun p =>
  if p = ["wf", "a.py"] then ["A"] else if p = ["wf", "c.py"] then ["C"] else []

/-- A root holding the file `solo.py` and an existing directory `out`. -/
def fsSoloOut : Entry := .dir (.cons "solo.py" .file (.cons "out" (.dir .nil) .nil))

/-- A root holding the directory `wf` (with `a.py`) and an existing
regular file `out`. -/
def fsWfOutFile : Entry :=
  .dir (.cons "wf" (.dir (.cons "a.py" .file .nil)) (.cons "out" .file .nil))

/-- Children of the `wf` directory in the nested fixture: subdirectories
`d1` and `d2`, each holding a file `w.py`. -/
def esNested : Entries :=
  .cons "d1" (.dir (.cons "w.py" .file .nil))
    (.cons "d2" (.dir (.cons "w.py" .file .nil)) .nil)

/-- A root holding `wf/d1/w.py` and `wf/d2/w.py`. -/
def fsNested : Entry := .dir (.cons "wf" (.dir esNested) .nil)

/-- The loader sending `wf/d1/w.py` to `"ONE"` and `wf/d2/w.py` to
`"TWO"`. -/
def loadNested : Pth → List String := fun p =>
  if p = ["wf", "d1", "w.py"] then ["ONE"]
  else if p = ["wf", "d2", "w.py"] then ["TWO"] else []

/-! ### Unfolding the router -/

theorem generate_yaml_none_eq (fs : Entry) (load : Pth → List String)
    (from_ : Pth) (recursive : Bool) :
    generate_yaml fs load from_ none recursive =
      [Event.stdoutWrite (String.intercalate docSep
        ((build_path_to_output load (sortPaths (expand_paths fs from_ recursive))).map
          Prod.snd))] := rfl

theorem generate_yaml_some_eq (fs : Entry) (load : Pth → List String)
    (from_ t : Pth) (recursive : Bool) :
    generate_yaml fs load from_ (some t) recursive =
      if isDirAt fs from_ then
        if existsAt fs t && !(isDirAt fs t) then
          [Event.raiseBadParameter badParameterMsg]
        else
          Event.mkdir t ::
            (build_path_to_output load (sortPaths (expand_paths fs from_ recursive))).map
              (fun pc => Event.write (t ++ [with_suffix pc.1 ".yaml"]) pc.2)
      else
        match build_path_to_output load (sortPaths (expand_paths fs from_ recursive)) with
        | [pc] => [Event.write t pc.2]
        | _ => [Event.raiseAssertionError] := rfl

theorem dest_check_false {fs : Entry} {t : Pth}
    (h : existsAt fs t = true → isDirAt fs t = true) :
    (existsAt fs t && !(isDirAt fs t)) = false := by
  cases hex : existsAt fs t
  · rfl
  · simp [h hex]

/-! ### Claims -/

/-- C1: when no destination is given, stdout receives the per-file
serialized documents joined by the separator `"\n---\n"` (a line holding
exactly `---`), over the contributing candidate paths in
lexicographically sorted order (the sorted candidate list is a pairwise
`pathLe`-ordered permutation of the expansion); in particular a single
source file defining two workflows serializing to `"X"` and `"Y"` puts
exactly `"X\n---\nY"` on stdout. -/
theorem stdout_is_sorted_join :
    (∀ (fs : Entry) (load : Pth → List String) (from_ : Pth) (recursive : Bool),
      generate_yaml fs load from_ none recursive =
        [Event.stdoutWrite (String.intercalate docSep
          (((sortPaths (expand_paths fs from_ recursive)).filter
              (fun p => !(load p).isEmpty)).map
            (fun p => String.intercalate docSep (load p))))] ∧
      List.Pairwise (fun a b => pathLe a b = true)
        (sortPaths (expand_paths fs from_ recursive)) ∧
      (sortPaths (expand_paths fs from_ recursive)).Perm
        (expand_paths fs from_ recursive)) ∧
    generate_yaml fsSolo loadXY ["solo.py"] none false =
      [Event.stdoutWrite "X\n---\nY"] := by
  refine ⟨fun fs load from_ recursive =>
    ⟨?_, sortPaths_pairwise _, sortPaths_perm _⟩, by decide⟩
  rw [generate_yaml_none_eq, build_path_to_output_eq, List.map_map]
  rfl

/-- C2: a candidate file from which the loader extracts zero workflows
contributes nothing: it adds no `(filename, text)` entry to the output
list (dropping it from the candidates leaves the list unchanged, and the
list equals the one built from only the contributing candidates), and in
directory-output mode the write events are exactly one per contributing
candidate, so a workflow-less file never gets an output file. -/
theorem empty_file_contributes_nothing :
    (∀ (load : Pth → List String) (p : Pth) (rest : List Pth), load p = [] →
      build_path_to_output load (p :: rest) = build_path_to_output load rest) ∧
    (∀ (load : Pth → List String) (paths : List Pth),
      build_path_to_output load paths =
        build_path_to_output load (paths.filter (fun q => !(load q).isEmpty))) ∧
    (∀ (fs : Entry) (load : Pth → List String) (from_ t : Pth) (recursive : Bool),
      isDirAt fs from_ = true → (existsAt fs t = true → isDirAt fs t = true) →
      generate_yaml fs load from_ (some t) recursive =
        Event.mkdir t ::
          ((sortPaths (expand_paths fs from_ recursive)).filter
              (fun q => !(load q).isEmpty)).map
            (fun p => Event.write (t ++ [with_suffix (nameOf p) ".yaml"])
              (String.intercalate docSep (load p)))) := by
  refine ⟨?_, ?_, ?_⟩
  · intro load p rest h
    simp [build_path_to_output, h]
  · intro load paths
    rw [build_path_to_output_eq, build_path_to_output_eq, List.filter_filter]
    simp
  · intro fs load from_ t recursive hdir hto
    rw [generate_yaml_some_eq, if_pos hdir, if_neg (by simp [dest_check_false hto]),
      build_path_to_output_eq, List.map_map]
    rfl

theorem empty_file_contributes_nothing_witness :
    (loadNone ["solo.py"] = [] ∧
      build_path_to_output loadNone [["solo.py"]] = build_path_to_output loadNone []) ∧
    (isDirAt fsWf ["wf"] = true ∧
      (existsAt fsWf ["out"] = true → isDirAt fsWf ["out"] = true) ∧
      generate_yaml fsWf loadAC ["wf"] (some ["out"]) false =
        Event.mkdir ["out"] ::
          ((sortPaths (expand_paths fsWf ["wf"] false)).filter
              (fun q => !(loadAC q).isEmpty)).map
            (fun p => Event.write (["out"] ++ [with_suffix (nameOf p) ".yaml"])
              (String.intercalate docSep (loadAC p)))) :=
  ⟨⟨rfl, empty_file_contributes_nothing.1 loadNone ["solo.py"] [] rfl⟩,
    ⟨by decide, by decide,
      empty_file_contributes_nothing.2.2 fsWf loadAC ["wf"] ["out"] false (by decide)
        (by decide)⟩⟩

/-- C3 counterexample: for a single-file source whose file defines no
workflows, the output list is empty, so the destination-file branch's
assertion that it has length exactly one fails (`AssertionError` is
raised); the claim that the assertion can never fail for a single-file
source is therefore false. -/
theorem single_file_assert_can_fail :
    isDirAt fsSolo ["solo.py"] = false ∧
    build_path_to_output loadNone (sortPaths (expand_paths fsSolo ["solo.py"] false)) = [] ∧
    generate_yaml fsSolo loadNone ["solo.py"] (some ["out.yaml"]) false =
      [Event.raiseAssertionError] := by decide

/-- C3 amended: when the source path is not a directory, a destination is
given, and the source file yields at least one workflow, the output list
has length exactly one and the single serialized text is written to the
destination path. -/
theorem single_file_writes_single_output
    (fs : Entry) (load : Pth → List String) (from_ t : Pth) (recursive : Bool)
    (hdir : isDirAt fs from_ = false) (hload : load from_ ≠ []) :
    build_path_to_output load (sortPaths (expand_paths fs from_ recursive)) =
      [(nameOf from_, String.intercalate docSep (load from_))] ∧
    generate_yaml fs load from_ (some t) recursive =
      [Event.write t (String.intercalate docSep (load from_))] := by
  have hne : (load from_).isEmpty = false := by
    cases h : load from_
    · exact absurd h hload
    · rfl
  have hexp : expand_paths fs from_ recursive = [from_] := by
    simp [expand_paths, hdir]
  have hbuild : build_path_to_output load (sortPaths (expand_paths fs from_ recursive)) =
      [(nameOf from_, String.intercalate docSep (load from_))] := by
    rw [hexp]
    simp [sortPaths, insertSorted, build_path_to_output, hne]
  refine ⟨hbuild, ?_⟩
  rw [generate_yaml_some_eq, if_neg (by simp [hdir]), hbuild]

theorem single_file_writes_single_output_witness :
    isDirAt fsSolo ["solo.py"] = false ∧ loadXY ["solo.py"] ≠ [] ∧
    generate_yaml fsSolo loadXY ["solo.py"] (some ["w.yaml"]) false =
      [Event.write ["w.yaml"] (String.intercalate docSep (loadXY ["solo.py"]))] :=
  ⟨by decide, by decide,
    (single_file_writes_single_output fsSolo loadXY ["solo.py"] ["w.yaml"] false
      (by decide) (by decide)).2⟩

/-- C4: when the source is a directory and the destination exists as a
non-directory, the run produces exactly one event, the user-facing
`BadParameter` error, and in particular no write, directory creation, or
stdout output happens before (or after) the failure. -/
theorem dir_source_file_destination_raises
    (fs : Entry) (load : Pth → List String) (from_ t : Pth) (recursive : Bool)
    (hdir : isDirAt fs from_ = true) (hex : existsAt fs t = true)
    (hnd : isDirAt fs t = false) :
    generate_yaml fs load from_ (some t) recursive =
      [Event.raiseBadParameter badParameterMsg] ∧
    ∀ ev ∈ generate_yaml fs load from_ (some t) recursive,
      (∀ q c, ev ≠ Event.write q c) ∧ (∀ q, ev ≠ Event.mkdir q) ∧
      (∀ s, ev ≠ Event.stdoutWrite s) := by
  have h : generate_yaml fs load from_ (some t) recursive =
      [Event.raiseBadParameter badParameterMsg] := by
    rw [generate_yaml_some_eq, if_pos hdir, if_pos (by simp [hex, hnd])]
  refine ⟨h, ?_⟩
  rw [h]
  intro ev hev
  rcases List.mem_singleton.mp hev with rfl
  exact ⟨fun q c heq => Event.noConfusion heq, fun q heq => Event.noConfusion heq,
    fun s heq => Event.noConfusion heq⟩

theorem dir_source_file_destination_raises_witness :
    isDirAt fsWfOutFile ["wf"] = true ∧ existsAt fsWfOutFile ["out"] = true ∧
    isDirAt fsWfOutFile ["out"] = false ∧
    generate_yaml fsWfOutFile loadX ["wf"] (some ["out"]) false =
      [Event.raiseBadParameter badParameterMsg] :=
  ⟨by decide, by decide, by decide,
    (dir_source_file_destination_raises fsWfOutFile loadX ["wf"] ["out"] false
      (by decide) (by decide) (by decide)).1⟩

/-- C5 counterexample: when the destination is an existing directory but
the source is a single file, the router does not take the
mirrored-directory branch: it neither creates the destination directory
nor writes `destination/filename`; it writes the single text directly at
the destination path.  So the claim's trigger "destination is a
directory or the source was a directory" is wrong: the code branches on
the source being a directory only. -/
theorem dest_dir_file_source_not_mirrored :
    isDirAt fsSoloOut ["out"] = true ∧
    isDirAt fsSoloOut ["solo.py"] = false ∧
    generate_yaml fsSoloOut loadX ["solo.py"] (some ["out"]) false =
      [Event.write ["out"] "X"] ∧
    Event.mkdir ["out"] ∉ generate_yaml fsSoloOut loadX ["solo.py"] (some ["out"]) false ∧
    Event.write ["out", "solo.yaml"] "X" ∉
      generate_yaml fsSoloOut loadX ["solo.py"] (some ["out"]) false := by decide

/-- C5 amended: whenever the source is a directory (and the destination,
when it exists, is a directory), the router creates the destination
directory and then, for each `(filename, text)` entry, writes `text` at
`destination/filename` with the extension replaced by `".yaml"`; e.g. a
source directory with `a.py → "A"` and `c.py → "C"` and destination
`out` yields exactly the writes `out/a.yaml ← "A"` and
`out/c.yaml ← "C"`. -/
theorem dir_source_mirrors_to_destination :
    (∀ (fs : Entry) (load : Pth → List String) (from_ t : Pth) (recursive : Bool),
      isDirAt fs from_ = true → (existsAt fs t = true → isDirAt fs t = true) →
      generate_yaml fs load from_ (some t) recursive =
        Event.mkdir t ::
          (build_path_to_output load (sortPaths (expand_paths fs from_ recursive))).map
            (fun pc => Event.write (t ++ [with_suffix pc.1 ".yaml"]) pc.2)) ∧
    generate_yaml fsWf loadAC ["wf"] (some ["out"]) false =
      [Event.mkdir ["out"], Event.write ["out", "a.yaml"] "A",
        Event.write ["out", "c.yaml"] "C"] := by
  refine ⟨fun fs load from_ t recursive hdir hto => ?_, by decide⟩
  rw [generate_yaml_some_eq, if_pos hdir, if_neg (by simp [dest_check_false hto])]

theorem dir_source_mirrors_to_destination_witness :
    isDirAt fsWf ["wf"] = true ∧
    (existsAt fsWf ["out2"] = true → isDirAt fsWf ["out2"] = true) ∧
    generate_yaml fsWf loadAC ["wf"] (some ["out2"]) false =
      Event.mkdir ["out2"] ::
        (build_path_to_output loadAC (sortPaths (expand_paths fsWf ["wf"] false))).map
          (fun pc => Event.write (["out2"] ++ [with_suffix pc.1 ".yaml"]) pc.2) :=
  ⟨by decide, by decide,
    dir_source_mirrors_to_destination.1 fsWf loadAC ["wf"] ["out2"] false (by decide)
      (by decide)⟩

/-- C6: on a directory source with recursion disabled, the expansion is
exactly the directory's immediate child files whose suffix is `".py"`
(subdirectory entries are not files and are not descended into), each
yielded as `source/name`; consequently every yielded path is exactly one
component longer than the source. -/
theorem nonrecursive_dir_yields_immediate_py_children
    (fs : Entry) (source : Pth) (es : Entries)
    (h : resolve fs source = some (.dir es)) :
    expand_paths fs source false =
      ((fileNames es).filter (fun n => decide (suffix n = ".py"))).map
        (fun n => source ++ [n]) ∧
    ∀ p ∈ expand_paths fs source false, p.length = source.length + 1 := by
  have hdir : isDirAt fs source = true := by simp [isDirAt, h]
  have hwalk : walkAt fs source =
      (source, dirNames es, fileNames es) :: walkEntries source es := by
    simp [walkAt, h, walkEntry]
  have h1 : expand_paths fs source false =
      frameOutputs (source, dirNames es, fileNames es) := by
    simp [expand_paths, hdir, hwalk]
  have h2 : expand_paths fs source false =
      ((fileNames es).filter (fun n => decide (suffix n = ".py"))).map
        (fun n => source ++ [n]) := by
    rw [h1]
    exact filterMap_of_ite (fun n => suffix n = ".py") (fun n => source ++ [n])
      (fileNames es)
  refine ⟨h2, ?_⟩
  rw [h2]
  intro p hp
  rcases List.mem_map.mp hp with ⟨n, _, rfl⟩
  simp

theorem nonrecursive_dir_yields_immediate_py_children_witness :
    resolve fsWf ["wf"] = some (.dir esWf) ∧
    expand_paths fsWf ["wf"] false =
      ((fileNames esWf).filter (fun n => decide (suffix n = ".py"))).map
        (fun n => ["wf"] ++ [n]) ∧
    ∀ p ∈ expand_paths fsWf ["wf"] false, p.length = ["wf"].length + 1 :=
  ⟨by decide,
    (nonrecursive_dir_yields_immediate_py_children fsWf ["wf"] esWf (by decide)).1,
    (nonrecursive_dir_yields_immediate_py_children fsWf ["wf"] esWf (by decide)).2⟩

/-- C7: on a directory source with recursion enabled, the expansion
yields a path exactly when it is `source` followed by the relative path
of a file somewhere in the directory's subtree, at any depth, whose name
has suffix `".py"`; so every `.py` file of the subtree is yielded and no
file with a different suffix is. -/
theorem recursive_dir_yields_all_py_in_subtree
    (fs : Entry) (source : Pth) (es : Entries) (p : Pth)
    (h : resolve fs source = some (.dir es)) :
    p ∈ expand_paths fs source true ↔
      ∃ rest, rest ∈ filesOfEntries es ∧ p = source ++ rest ∧
        suffix (nameOf rest) = ".py" := by
  have hdir : isDirAt fs source = true := by simp [isDirAt, h]
  have hwalk : walkAt fs source = walkEntry source (.dir es) := by simp [walkAt, h]
  have h1 : expand_paths fs source true =
      (walkEntry source (.dir es)).flatMap frameOutputs := by
    simp [expand_paths, hdir, hwalk]
  rw [h1, mem_walkEntry_outputs]
  simp only [filesOfE]

theorem recursive_dir_yields_all_py_in_subtree_witness :
    resolve fsNested ["wf"] = some (.dir esNested) ∧
    (["wf", "d1", "w.py"] ∈ expand_paths fsNested ["wf"] true ↔
      ∃ rest, rest ∈ filesOfEntries esNested ∧
        ["wf", "d1", "w.py"] = ["wf"] ++ rest ∧ suffix (nameOf rest) = ".py") :=
  ⟨by decide,
    recursive_dir_yields_all_py_in_subtree fsNested ["wf"] esNested
      ["wf", "d1", "w.py"] (by decide)⟩

/-- C8: when the source path is not a directory, the expansion yields
exactly that one path and nothing else, with no extension filter
applied. -/
theorem single_file_source_yields_itself
    (fs : Entry) (source : Pth) (recursive : Bool) (h : isDirAt fs source = false) :
    expand_paths fs source recursive = [source] := by
  simp [expand_paths, h]

theorem single_file_source_yields_itself_witness :
    isDirAt fsSolo ["data.txt"] = false ∧ suffix "data.txt" ≠ ".py" ∧
    expand_paths fsSolo ["data.txt"] true = [["data.txt"]] :=
  ⟨by decide, by decide,
    single_file_source_yields_itself fsSolo ["data.txt"] true (by decide)⟩

/-- C9: with a recursive directory source and a directory destination,
output paths are formed from the candidate's base name only, flattening
the subtree: `wf/d1/w.py` and `wf/d2/w.py` are distinct candidates that
map to the same destination path `out/w.yaml`, the write for the file
later in sorted order comes later in the trace, and the final content at
that path is the later file's output. -/
theorem flattened_names_overwrite :
    expand_paths fsNested ["wf"] true = [["wf", "d1", "w.py"], ["wf", "d2", "w.py"]] ∧
    (["wf", "d1", "w.py"] : Pth) ≠ ["wf", "d2", "w.py"] ∧
    with_suffix (nameOf (["wf", "d1", "w.py"] : Pth)) ".yaml" =
      with_suffix (nameOf (["wf", "d2", "w.py"] : Pth)) ".yaml" ∧
    generate_yaml fsNested loadNested ["wf"] (some ["out"]) true =
      [Event.mkdir ["out"], Event.write ["out", "w.yaml"] "ONE",
        Event.write ["out", "w.yaml"] "TWO"] ∧
    finalContent (generate_yaml fsNested loadNested ["wf"] (some ["out"]) true)
      ["out", "w.yaml"] = some "TWO" := by decide

/-- C10: with a directory source and a usable destination, the
destination directory is created even when no candidate file contributes
a workflow: the trace is exactly the directory creation, with no file
written. -/
theorem mkdir_even_when_no_output
    (fs : Entry) (load : Pth → List String) (from_ t : Pth) (recursive : Bool)
    (hdir : isDirAt fs from_ = true)
    (hto : existsAt fs t = true → isDirAt fs t = true)
    (hload : ∀ p ∈ sortPaths (expand_paths fs from_ recursive), load p = []) :
    generate_yaml fs load from_ (some t) recursive = [Event.mkdir t] := by
  rw [generate_yaml_some_eq, if_pos hdir, if_neg (by simp [dest_check_false hto]),
    build_path_to_output_nil load _ hload]
  rfl

theorem mkdir_even_when_no_output_witness :
    isDirAt fsWf ["wf"] = true ∧
    (existsAt fsWf ["out"] = true → isDirAt fsWf ["out"] = true) ∧
    (∀ p ∈ sortPaths (expand_paths fsWf ["wf"] false), loadNone p = []) ∧
    generate_yaml fsWf loadNone ["wf"] (some ["out"]) false = [Event.mkdir ["out"]] :=
  ⟨by decide, by decide, by decide,
    mkdir_even_when_no_output fsWf loadNone ["wf"] ["out"] false (by decide) (by decide)
      (by decide)⟩
